import Mathlib

/-!
Shallow embedding of the GIF decoding core of `src/ssd1306plus.py`
(`SSD1306.gif` and its nested helpers `_read_subblocks`, `_lzw_decode`,
`_next_code`), together with proofs about it.

Conventions used throughout:
* a Python `bytes` value is a `List Nat` whose elements are the byte values;
* Python integer arithmetic is `Nat`/`Int` arithmetic (`<<`, `>>`, `&`, `|`
  become `<<<`, `>>>`, `&&&`, `|||`);
* an out-of-range indexing expression `data[i]` (which raises `IndexError`
  in Python, aborting the whole call) is modelled by an explicit bounds
  check whose failure produces a distinguished crash result;
* `while` loops are modelled as fuel-indexed structural recursion.  Every
  loop of the source strictly increases a cursor bounded by the input
  length (or reads at least one bit per iteration), so the fuel supplied
  at each call site dominates the possible number of iterations; running
  out of fuel is mapped to the crash result, so no theorem below ever
  mistakes a truncated run for a completed one.
-/

namespace Ssd1306Plus

/-! ## Definitions: the embedded program -/

/-- One reading loop of `_next_code` (src/ssd1306plus.py lines 174-196):
accumulates `codeSize` bits of `img`, least-significant-bit first, starting
at bit position `bitPos`.  Arguments `raw`, `shift`, `bitsRead` mirror the
local variables of the Python loop.  Each iteration consumes at least one
bit, so at most `codeSize` iterations happen; the fuel is initialised to
`codeSize + 1` by `nextCode` below and can never be exhausted. -/
def nextCodeAuxF (img : List Nat) : Nat → Nat → Nat → Nat → Nat → Nat → Option Nat × Nat
  | 0, bitPos, _, _, _, _ => (none, bitPos)
  | fuel + 1, bitPos, raw, shift, bitsRead, codeSize =>
    if bitsRead < codeSize ∧ bitPos / 8 < img.length then
      let b := img.getD (bitPos / 8) 0
      let available := 8 - bitPos % 8
      let take0 := codeSize - bitsRead
      let take := if available < take0 then available else take0
      let v := (b >>> (bitPos % 8)) &&& (2 ^ take - 1)
      nextCodeAuxF img fuel (bitPos + take) (raw ||| (v <<< shift)) (shift + take)
        (bitsRead + take) codeSize
    else if bitsRead = codeSize then (some raw, bitPos) else (none, bitPos)

/-- The function `_next_code(bit_pos, code_size)` of src/ssd1306plus.py lines 174-196:
returns the next `codeSize`-bit code and the new bit position, or `none`
when the byte stream is exhausted before a full code is available. -/
def nextCode (img : List Nat) (bitPos codeSize : Nat) : Option Nat × Nat :=
  if img.length ≤ bitPos / 8 then (none, bitPos)
  else nextCodeAuxF img (codeSize + 1) bitPos 0 0 0 codeSize

/-- The freshly initialised LZW dictionary
`[[i] for i in range(clear_code)] + [None, None]`
(src/ssd1306plus.py lines 167, 204, 224). -/
def initDict (clearCode : Nat) : List (Option (List Nat)) :=
  ((List.range clearCode).map (fun i => some [i])) ++ [none, none]

/-- The mutable state of the decoding loop of `_lzw_decode`
(src/ssd1306plus.py lines 218-255): the dictionary, the current code size,
the bit cursor, the output produced so far and the previously emitted
index sequence. -/
structure LZWState where
  dict : List (Option (List Nat))
  codeSize : Nat
  bitPos : Nat
  output : List Nat
  prev : List Nat
deriving DecidableEq, Repr

/-- Result of one iteration of the decoding loop: continue with a new
state, leave the loop returning the output accumulated so far, or raise
an `IndexError` (`prev[0]` / `cur[0]` on an empty list). -/
inductive StepRes where
  | cont (s : LZWState)
  | stop (out : List Nat)
  | crash
deriving DecidableEq, Repr

/-- One iteration of the `while len(output) < expected_pixels` loop of
`_lzw_decode` (src/ssd1306plus.py lines 218-255), starting at the point
where the loop body reads the next code. -/
def lzwStep (img : List Nat) (minCodeSize : Nat) (s : LZWState) : StepRes :=
  let clearCode := 2 ^ minCodeSize
  let endCode := clearCode + 1
  match nextCode img s.bitPos s.codeSize with
  | (none, _) => .stop s.output
  | (some code, bp) =>
    if code = clearCode then
      -- lines 223-235: reset the dictionary and the code size, read one
      -- more code, emit its entry (or nothing when it is invalid)
      let dict0 := initDict clearCode
      let cs0 := minCodeSize + 1
      match nextCode img bp cs0 with
      | (none, _) => .stop s.output
      | (some c2, bp2) =>
        if c2 = endCode then .stop s.output
        else
          let cur := if dict0.length ≤ c2 ∨ dict0.getD c2 none = none then []
                     else (dict0.getD c2 none).getD []
          .cont ⟨dict0, cs0, bp2, s.output ++ cur, cur⟩
    else if code = endCode then .stop s.output
    else
      -- lines 240-247: look the code up, or build the KwKwK sequence
      let entry := if code < s.dict.length then s.dict.getD code none else none
      match entry with
      | some cur =>
        -- lines 249-255: emit, extend the dictionary, maybe grow the code
        -- size; `cur[0]` raises when `cur` is empty
        match cur with
        | [] => .crash
        | c0 :: _ =>
          let dict2 := s.dict ++ [some (s.prev ++ [c0])]
          let cs2 := if dict2.length = 2 ^ s.codeSize ∧ s.codeSize < 12
                     then s.codeSize + 1 else s.codeSize
          .cont ⟨dict2, cs2, bp, s.output ++ cur, cur⟩
      | none =>
        if code = s.dict.length then
          -- KwKwK case, line 244: `prev[0]` raises when `prev` is empty
          match s.prev with
          | [] => .crash
          | p0 :: _ =>
            let cur := s.prev ++ [p0]
            let dict2 := s.dict ++ [some (s.prev ++ [p0])]
            let cs2 := if dict2.length = 2 ^ s.codeSize ∧ s.codeSize < 12
                       then s.codeSize + 1 else s.codeSize
            .cont ⟨dict2, cs2, bp, s.output ++ cur, cur⟩
        else .stop s.output

/-- The decoding loop of `_lzw_decode` (src/ssd1306plus.py lines 218-257).
Each iteration reads at least one code of at least one bit, so the fuel
supplied by `lzw_decode` below dominates the iteration count; exhausted
fuel is reported as `none`, like a crash, so it can never be mistaken for
a normal return. -/
def lzwRunF (img : List Nat) (minCodeSize expected : Nat) : Nat → LZWState → Option (List Nat)
  | fuel, s =>
    if expected ≤ s.output.length then some (s.output.take expected)
    else
      match fuel with
      | 0 => none
      | fuel + 1 =>
        match lzwStep img minCodeSize s with
        | .stop out => some (out.take expected)
        | .crash => none
        | .cont s' => lzwRunF img minCodeSize expected fuel s'

/-- The code before the decoding loop of `_lzw_decode`
(src/ssd1306plus.py lines 198-216): read the first code, honour a leading
clear code, and set up `prev`/`output`.  Returns `none` for each of the
early `return output` paths there (on all of which `output` is still
`[]`). -/
def lzwInit (img : List Nat) (minCodeSize : Nat) : Option LZWState :=
  let clearCode := 2 ^ minCodeSize
  let endCode := clearCode + 1
  let dict0 := initDict clearCode
  let cs0 := minCodeSize + 1
  match nextCode img 0 cs0 with
  | (none, _) => none
  | (some code, bp) =>
    -- lines 203-208: a leading clear code re-initialises the (already
    -- fresh) dictionary and code size and reads one more code
    let next : Option (Nat × Nat) :=
      if code = clearCode then
        match nextCode img bp cs0 with
        | (none, _) => none
        | (some c2, bp2) => if c2 = endCode then none else some (c2, bp2)
      else some (code, bp)
    match next with
    | none => none
    | some (c, bp') =>
      if c = endCode then none
      else if dict0.length ≤ c ∨ dict0.getD c none = none then none
      else
        let prev := (dict0.getD c none).getD []
        some ⟨dict0, cs0, bp', prev, prev⟩

/-- The function `_lzw_decode(img_bytes, min_code_size, expected_pixels)` of
src/ssd1306plus.py lines 155-257.  `some l` is a normal return of the
list `l`; `none` is an uncaught `IndexError`.  The loop fuel
`8 * img.length + 2` dominates the iteration count: every iteration reads
at least one code of `code_size ≥ min_code_size + 1 ≥ 3` bits, and the
bit cursor never exceeds `8 * img.length`. -/
def lzw_decode (img : List Nat) (minCodeSize expected : Nat) : Option (List Nat) :=
  if minCodeSize < 2 ∨ 8 < minCodeSize then some (img.take expected)
  else
    match lzwInit img minCodeSize with
    | none => some []
    | some s => lzwRunF img minCodeSize expected (8 * img.length + 2) s

/-- Concrete LZW example stream: `min_code_size = 2`, whose 3-bit codes
are `1`, `4` (the clear code), `2`, `0`. -/
def exImg : List Nat := [0xA1, 0x00]

/-- The state of `_lzw_decode` on `exImg` after the initial code `1`. -/
def exS0 : LZWState := ⟨initDict 4, 3, 3, [1], [1]⟩

/-- The state of `_lzw_decode` on `exImg` after the mid-stream clear. -/
def exS1 : LZWState := ⟨initDict 4, 3, 9, [1, 2], [2]⟩

/-- The state of `_lzw_decode` on `exImg` after one further code. -/
def exS2 : LZWState := ⟨initDict 4 ++ [some [2, 0]], 3, 12, [1, 2, 0], [0]⟩

/-- A dictionary slot only holds indices below `c`. -/
def entryBounded (c : Nat) : Option (List Nat) → Prop
  | none => True
  | some l => ∀ i ∈ l, i < c

/-- Every dictionary slot, `prev` and the output of a decoding-loop state
only hold indices below `c`. -/
def stateBounded (c : Nat) (s : LZWState) : Prop :=
  (∀ e ∈ s.dict, entryBounded c e) ∧ (∀ i ∈ s.prev, i < c) ∧ (∀ i ∈ s.output, i < c)

/-- One observable effect of `SSD1306.gif` on the display / clock. -/
inductive Eff where
  | fillRect (x y : Int) (w h : Nat) (c : Nat)
  | pixel (x y : Int) (c : Nat)
  | flush
  | sleep (ms : Int)
deriving DecidableEq, Repr

/-- The effects of visiting one source pixel of a frame
(src/ssd1306plus.py lines 366-386): skip when the colour index equals the
active transparency index, map to 1-bit colour by comparison with the
background index, and drop the write when a crop rectangle
`(xmin, ymin, xmax, ymax)` is given and the destination lies strictly
outside it. -/
def cellEff (indices : List Nat) (bg : Nat) (transp : Option Nat)
    (crop : Option (Int × Int × Int × Int)) (px py : Int) (pos : Nat) : List Eff :=
  if pos < indices.length then
    let idx := indices.getD pos 0
    if transp = some idx then []
    else
      let col : Nat := if idx ≠ bg then 1 else 0
      match crop with
      | none => [.pixel px py col]
      | some (x0, y0, x1, y1) =>
        if px < x0 ∨ x1 < px ∨ py < y0 ∨ y1 < py then [] else [.pixel px py col]
  else []

/-- The per-frame pixel loop of `SSD1306.gif` (src/ssd1306plus.py lines
361-386), visiting destination cells in row-major order.  In the source,
`pos` counts visited cells and an inner-loop `break` fires once
`pos >= len(indices)`; since `pos` equals `yy * width + xx` at every
visited cell and stops advancing exactly when the `break` starts firing,
the break is modelled by `cellEff`'s bounds guard, which yields the same
effect trace. -/
def frameEffs (indices : List Nat) (bg : Nat) (transp : Option Nat)
    (crop : Option (Int × Int × Int × Int)) (baseX baseY : Int)
    (width height : Nat) : List Eff :=
  (List.range height).foldl
    (fun (accR : List Eff) (yy : Nat) =>
      (List.range width).foldl
        (fun (acc : List Eff) (xx : Nat) =>
          acc ++ cellEff indices bg transp crop (baseX + (xx : Int)) (baseY + (yy : Int))
            ((yy * width + xx : Nat)))
        accR)
    []

/-- The function `_read_subblocks(pos)` of src/ssd1306plus.py lines 142-152: read GIF
data sub-blocks until a zero length prefix or the end of `data`, returning
the concatenated payload and the new cursor.  The loop advances the cursor
by at least one byte per iteration while it is below `data.length`, so the
fuel `data.length` used by `readSubblocks` below always suffices. -/
def readSubblocksF (data : List Nat) : Nat → Nat → List Nat × Nat
  | 0, pos => ([], pos)
  | fuel + 1, pos =>
    if pos < data.length then
      let blockLen := data.getD pos 0
      if blockLen = 0 then ([], pos + 1)
      else
        let r := readSubblocksF data fuel (pos + 1 + blockLen)
        ((data.drop (pos + 1)).take blockLen ++ r.1, r.2)
    else ([], pos)

/-- The function `_read_subblocks(pos)` with its always-sufficient fuel. -/
def readSubblocks (data : List Nat) (pos : Nat) : List Nat × Nat :=
  readSubblocksF data data.length pos

/-- The two sub-block skipping loops of `SSD1306.gif`
(src/ssd1306plus.py lines 305-309 and 313-318).  Both read a length byte
at the cursor and jump over that many bytes plus the length byte itself
until a zero length is read; both raise `IndexError` (modelled as `none`)
when the cursor passes the end of `data`.  The cursor grows by at least
one byte per iteration, so the fuel `data.length + 1` used by
`skipSubblocks` below always suffices. -/
def skipSubblocksF (data : List Nat) : Nat → Nat → Option Nat
  | 0, _ => none
  | fuel + 1, pos =>
    if pos < data.length then
      let sl := data.getD pos 0
      if sl = 0 then some (pos + 1)
      else skipSubblocksF data fuel (pos + 1 + sl)
    else none

/-- The sub-block skipping loops with their always-sufficient fuel. -/
def skipSubblocks (data : List Nat) (pos : Nat) : Option Nat :=
  skipSubblocksF data (data.length + 1) pos

/-- Result of one pass of the animation loop over the block stream:
either the pass finished (trailer, end of data), or an uncaught exception
interrupted it.  In both cases the effects already performed are kept. -/
inductive PassRes where
  | ok (effs : List Eff)
  | crash (effs : List Eff)
deriving DecidableEq, Repr

/-- The effect trace of a pass outcome. -/
def PassRes.effs : PassRes → List Eff
  | .ok e => e
  | .crash e => e

/-- What one iteration of the block-scanning loop decides to do: leave
the loop with a result, or continue scanning at a new cursor with
possibly updated per-pass state and effect trace. -/
inductive PassStep where
  | stop (r : PassRes)
  | next (p : Nat) (transp : Option Nat) (frameDelay : Int) (acc : List Eff)
deriving DecidableEq, Repr

/-- The effect trace held by a loop-iteration outcome. -/
def PassStep.effs : PassStep → List Eff
  | .stop r => r.effs
  | .next _ _ _ a => a

/-- The extension-block branch of the scanner (src/ssd1306plus.py lines
278-320), entered with `p` on the label byte (just after the `0x21`).  A
Graphic Control Extension of declared size 4 updates the pending frame
delay (always) and the pending transparency index (only when the
transparency flag is set); any other extension, or a GCE of another size,
is skipped by consuming sub-blocks.  Reading past the end of `data`
raises (`IndexError`), modelled as a crash. -/
def extensionStep (data : List Nat) (p : Nat) (transp : Option Nat) (frameDelay : Int)
    (acc : List Eff) : PassStep :=
  if p < data.length then
    let lab := data.getD p 0
    let q := p + 1
    if lab = 0xF9 then
      if q < data.length then
        let blockSize := data.getD q 0
        let q := q + 1
        if blockSize = 4 then
          -- lines 286-301: packed fields, delay lo/hi, transparency
          -- index, terminator (read but unused)
          if q + 4 < data.length then
            let packedFields := data.getD q 0
            let delayLo := data.getD (q + 1) 0
            let delayHi := data.getD (q + 2) 0
            let transIndex := data.getD (q + 3) 0
            let fd : Int := ((((delayHi <<< 8) ||| delayLo) * 10 : Nat) : Int)
            let fd := if fd ≤ 0 then 50 else fd
            let transp := if packedFields &&& 1 ≠ 0 then some transIndex else transp
            .next (q + 5) transp fd acc
          else .stop (.crash acc)
        else
          -- lines 303-309: skip a GCE of unexpected size
          match skipSubblocks data q with
          | none => .stop (.crash acc)
          | some q2 => .next q2 transp frameDelay acc
      else .stop (.crash acc)
    else
      -- lines 311-318: skip any other extension type
      match skipSubblocks data q with
      | none => .stop (.crash acc)
      | some q2 => .next q2 transp frameDelay acc
  else .stop (.crash acc)

/-- The image-descriptor branch of the scanner (src/ssd1306plus.py lines
322-397), entered with `p` on the first descriptor byte (just after the
`0x2C`).  Interlaced frames are skipped without drawing; otherwise the
frame is LZW-decoded, composited (optionally after a clearing
`fill_rect`), flushed once, and followed by the resolved delay.  In both
continuation cases the pending GCE state `transp` / `frameDelay` is
passed on unchanged. -/
def imageStep (data : List Nat) (x y : Int) (delayOverride : Option Int) (clear : Bool)
    (crop : Option (Int × Int × Int × Int)) (bg : Nat) (p : Nat) (transp : Option Nat)
    (frameDelay : Int) (acc : List Eff) : PassStep :=
  if p + 8 < data.length then
    let left := data.getD p 0 ||| (data.getD (p + 1) 0 <<< 8)
    let top := data.getD (p + 2) 0 ||| (data.getD (p + 3) 0 <<< 8)
    let width := data.getD (p + 4) 0 ||| (data.getD (p + 5) 0 <<< 8)
    let height := data.getD (p + 6) 0 ||| (data.getD (p + 7) 0 <<< 8)
    let packedFields := data.getD (p + 8) 0
    let q := p + 9
    let lctFlag := packedFields &&& 0x80 ≠ 0
    let interlace := packedFields &&& 0x40 ≠ 0
    if interlace then
      -- lines 334-341: interlaced frames are skipped, not drawn
      let q := if lctFlag then q + 3 * 2 ^ ((packedFields &&& 0x07) + 1) else q
      .next (readSubblocks data (q + 1)).2 transp frameDelay acc
    else
      let q := if lctFlag then q + 3 * 2 ^ ((packedFields &&& 0x07) + 1) else q
      if q < data.length then
        let minCodeSize := data.getD q 0
        let q := q + 1
        let r := readSubblocks data q
        match lzw_decode r.1 minCodeSize (width * height) with
        | none => .stop (.crash acc)
        | some indices =>
          -- lines 357-395: composite the frame, flush once, sleep
          let clearEffs := if clear then
              [Eff.fillRect (x + (left : Int)) (y + (top : Int)) width height 0] else []
          let pixelEffs := frameEffs indices bg transp crop
              (x + (left : Int)) (y + (top : Int)) width height
          let d := match delayOverride with
            | some dm => dm
            | none => frameDelay
          let d := if d ≤ 0 then 50 else d
          .next r.2 transp frameDelay
            (acc ++ clearEffs ++ pixelEffs ++ [Eff.flush, Eff.sleep d])
      else .stop (.crash acc)
  else .stop (.crash acc)

/-- One iteration of the `while p < len(data)` block-scanning loop of
`SSD1306.gif` (src/ssd1306plus.py lines 269-397): read the block-type
byte and dispatch on it.  A byte other than `0x3B`, `0x21`, `0x2C`
matches no branch of the source, so the loop just continues at the next
byte. -/
def scanStep (data : List Nat) (x y : Int) (delayOverride : Option Int) (clear : Bool)
    (crop : Option (Int × Int × Int × Int)) (bg : Nat) (p : Nat) (transp : Option Nat)
    (frameDelay : Int) (acc : List Eff) : PassStep :=
  if p < data.length then
    let blockType := data.getD p 0
    let q := p + 1
    if blockType = 0x3B then .stop (.ok acc)
    else if blockType = 0x21 then extensionStep data q transp frameDelay acc
    else if blockType = 0x2C then imageStep data x y delayOverride clear crop bg q transp frameDelay acc
    else .next q transp frameDelay acc
  else .stop (.ok acc)

/-- The `while p < len(data)` loop itself, iterating `scanStep`.  The
cursor strictly increases on every iteration, so the fuel
`data.length + 1` supplied by `runPass` below always suffices; running
out of fuel is reported as a crash, never as a completed pass. -/
def runPassF (data : List Nat) (x y : Int) (delayOverride : Option Int) (clear : Bool)
    (crop : Option (Int × Int × Int × Int)) (bg : Nat) :
    Nat → Nat → Option Nat → Int → List Eff → PassRes
  | fuel, p, transp, frameDelay, acc =>
    match fuel with
    | 0 => .crash acc
    | fuel + 1 =>
      match scanStep data x y delayOverride clear crop bg p transp frameDelay acc with
      | .stop r => r
      | .next p' transp' fd' acc' =>
        runPassF data x y delayOverride clear crop bg fuel p' transp' fd' acc'

/-- One full pass of the animation loop (src/ssd1306plus.py lines
264-397), started at `startPos` with the per-pass state
`transparency_index = None`, `frame_delay_ms = 0` of lines 266-267. -/
def runPass (data : List Nat) (x y : Int) (delayOverride : Option Int) (clear : Bool)
    (crop : Option (Int × Int × Int × Int)) (bg : Nat) (startPos : Nat) : PassRes :=
  runPassF data x y delayOverride clear crop bg (data.length + 1) startPos none 0 []

/-- Result of a whole `gif()` call: returned normally after `passes` full
passes, raised an uncaught exception, or (for the model's bounded
unrolling of the `while` loop of line 264) still running after the given
number of loop iterations — the mark of non-termination when it holds for
every bound.  Each constructor keeps the effect trace produced so far. -/
inductive GifRes where
  | done (effs : List Eff) (passes : Nat)
  | crashed (effs : List Eff)
  | spin (effs : List Eff)
deriving DecidableEq, Repr

/-- The effect trace of a `gif()` outcome. -/
def GifRes.effs : GifRes → List Eff
  | .done e _ => e
  | .crashed e => e
  | .spin e => e

/-- The number of completed passes of a `gif()` call that returned. -/
def GifRes.passes : GifRes → Option Nat
  | .done _ n => some n
  | _ => none

/-- Whether the bounded unrolling ran out of loop iterations. -/
def GifRes.isSpin : GifRes → Bool
  | .spin _ => true
  | _ => false

/-- The animation `while infinite or loops_done < loop` loop of
`SSD1306.gif` (src/ssd1306plus.py lines 259-399), unrolled at most `fuel`
times. -/
def gifAnimF (data : List Nat) (x y : Int) (loop : Int) (delayOverride : Option Int)
    (clear : Bool) (crop : Option (Int × Int × Int × Int)) (bg : Nat) (startPos : Nat) :
    Nat → Nat → List Eff → GifRes
  | fuel, loopsDone, acc =>
    if loop < 0 ∨ (loopsDone : Int) < loop then
      match fuel with
      | 0 => .spin acc
      | fuel + 1 =>
        match runPass data x y delayOverride clear crop bg startPos with
        | .crash effs => .crashed (acc ++ effs)
        | .ok effs => gifAnimF data x y loop delayOverride clear crop bg startPos fuel
            (loopsDone + 1) (acc ++ effs)
    else .done acc loopsDone

/-- The `GIF87a` signature bytes. -/
def gifHeader87 : List Nat := [0x47, 0x49, 0x46, 0x38, 0x37, 0x61]

/-- The `GIF89a` signature bytes. -/
def gifHeader89 : List Nat := [0x47, 0x49, 0x46, 0x38, 0x39, 0x61]

/-- The position right after the Logical Screen Descriptor and the
optional Global Color Table (src/ssd1306plus.py lines 134-139, 262),
where every pass over the block stream starts. -/
def gifStartPos (data : List Nat) : Nat :=
  let packed := data.getD 10 0
  if packed &&& 0x80 ≠ 0 then 13 + 3 * 2 ^ ((packed &&& 0x07) + 1) else 13

/-- The method `SSD1306.gif(filename, x, y, loop, delay_ms, clear, crop)` of
src/ssd1306plus.py lines 99-399, applied to the bytes `data` of the named
file: validate the length and signature (returning with an empty effect
trace and zero passes otherwise), parse the header, then run the
animation loop (bounded by `fuel` iterations in this model). -/
def gifRun (data : List Nat) (x y : Int) (loop : Int) (delayOverride : Option Int)
    (clear : Bool) (crop : Option (Int × Int × Int × Int)) (fuel : Nat) : GifRes :=
  if data.length < 13 then .done [] 0
  else if ¬(data.take 6 = gifHeader87 ∨ data.take 6 = gifHeader89) then .done [] 0
  else
    gifAnimF data x y loop delayOverride clear crop (data.getD 11 0) (gifStartPos data) fuel 0 []

/-- Concrete stream refuting C1: `GIF89a` header, 13-byte LSD (no global
colour table, background index 0), one GCE (transparency on, index 1,
delay 100 ms), then two 1×1 frames (both using the invalid LZW minimum
code size 0, so their single raw byte is the pixel index: 0 for frame 1,
1 for frame 2), then the trailer.  Frame 2 has no GCE of its own. -/
def c1data : List Nat :=
  [0x47, 0x49, 0x46, 0x38, 0x39, 0x61, 2, 0, 2, 0, 0, 0, 0,
   0x21, 0xF9, 0x04, 0x01, 0x0A, 0x00, 0x01, 0x00,
   0x2C, 0, 0, 0, 0, 1, 0, 1, 0, 0, 0x00, 1, 0, 0,
   0x2C, 0, 0, 0, 0, 1, 0, 1, 0, 0, 0x00, 1, 1, 0,
   0x3B]

/-- Concrete stream refuting C2: header and LSD, then the unknown
top-level byte `0x00`, then a 1×1 frame with pixel index 1, then the
trailer. -/
def c2data : List Nat :=
  [0x47, 0x49, 0x46, 0x38, 0x39, 0x61, 2, 0, 2, 0, 0, 0, 0,
   0x00,
   0x2C, 0, 0, 0, 0, 1, 0, 1, 0, 0, 0x00, 1, 1, 0,
   0x3B]

/-- A header-plus-LSD-only stream (13 bytes, no blocks at all): each pass
over it is empty and succeeds immediately. -/
def c9data : List Nat := [0x47, 0x49, 0x46, 0x38, 0x39, 0x61, 2, 0, 2, 0, 0, 0, 0]

/-! ## Theorems -/

theorem initDict_length (c : Nat) : (initDict c).length = c + 2 := by
  simp [initDict]

theorem initDict_getD_lt (c i : Nat) (h : i < c) :
    (initDict c).getD i none = some [i] := by
  unfold initDict
  rw [List.getD_append]
  · simp [List.getD, h]
  · simpa using h

theorem initDict_getD_clear (c : Nat) : (initDict c).getD c none = none := by
  unfold initDict
  rw [List.getD_append_right] <;> simp

theorem initDict_getD_end (c : Nat) : (initDict c).getD (c + 1) none = none := by
  unfold initDict
  rw [List.getD_append_right] <;> simp

theorem lzwRunF_length_le (img : List Nat) (m e : Nat) :
    ∀ fuel s l, lzwRunF img m e fuel s = some l → l.length ≤ e := by
  intro fuel
  induction fuel with
  | zero =>
    intro s l h
    simp only [lzwRunF] at h
    split at h
    · simp only [Option.some.injEq] at h
      subst h
      exact List.length_take_le _ _
    · exact absurd h (by simp)
  | succ fuel ih =>
    intro s l h
    simp only [lzwRunF] at h
    split at h
    · simp only [Option.some.injEq] at h
      subst h
      exact List.length_take_le _ _
    · split at h
      · simp only [Option.some.injEq] at h
        subst h
        exact List.length_take_le _ _
      · exact absurd h (by simp)
      · exact ih _ _ h

/-- C3: for every input byte sequence, every minimum code size and every
expected pixel count, a list returned by `_lzw_decode` (on any of its
non-crashing exit paths: fallback, early returns, end code, exhausted bit
stream, invalid code, or normal completion) has length at most
`expected`. -/
theorem lzw_decode_length_le (img : List Nat) (minCodeSize expected : Nat) (l : List Nat)
    (h : lzw_decode img minCodeSize expected = some l) : l.length ≤ expected := by
  unfold lzw_decode at h
  split at h
  · simp only [Option.some.injEq] at h
    subst h
    exact List.length_take_le _ _
  · split at h
    · simp only [Option.some.injEq] at h
      subst h
      simp
    · exact lzwRunF_length_le _ _ _ _ _ _ h

theorem lzw_decode_length_le_witness : ([5] : List Nat).length ≤ 1 :=
  lzw_decode_length_le [5, 6] 0 1 [5] (by decide)

/-- C6: when `min_code_size` is outside `2..8`, `_lzw_decode` returns the
raw input bytes truncated to the first `expected` bytes, and raises
nothing. -/
theorem lzw_decode_invalid_min_code (img : List Nat) (minCodeSize expected : Nat)
    (h : minCodeSize < 2 ∨ 8 < minCodeSize) :
    lzw_decode img minCodeSize expected = some (img.take expected) := by
  unfold lzw_decode
  rw [if_pos h]

theorem lzw_decode_invalid_min_code_witness :
    lzw_decode [7, 3, 250] 9 2 = some [7, 3] :=
  lzw_decode_invalid_min_code [7, 3, 250] 9 2 (Or.inr (by decide))

theorem lzw_code_size_aux (img : List Nat) (m : Nat) (s s' : LZWState)
    (hstep : lzwStep img m s = .cont s') :
    ((nextCode img s.bitPos s.codeSize).1 = some (2 ^ m) ∧ s'.codeSize = m + 1) ∨
    ((nextCode img s.bitPos s.codeSize).1 ≠ some (2 ^ m) ∧
      s'.codeSize = if s'.dict.length = 2 ^ s.codeSize ∧ s.codeSize < 12
                    then s.codeSize + 1 else s.codeSize) := by
  simp only [lzwStep] at hstep
  split at hstep
  · exact absurd hstep (by simp)
  · rename_i code bp heq
    by_cases hc : code = 2 ^ m
    · rw [if_pos hc] at hstep
      left
      refine ⟨by rw [heq, hc], ?_⟩
      split at hstep
      · exact absurd hstep (by simp)
      · split at hstep
        · exact absurd hstep (by simp)
        · injection hstep with h'
          subst h'
          rfl
    · rw [if_neg hc] at hstep
      right
      refine ⟨by rw [heq]; simpa using hc, ?_⟩
      split at hstep
      · exact absurd hstep (by simp)
      · split at hstep
        · split at hstep
          · exact absurd hstep (by simp)
          · injection hstep with h'
            subst h'
            rfl
        · split at hstep
          · split at hstep
            · exact absurd hstep (by simp)
            · injection hstep with h'
              subst h'
              rfl
          · exact absurd hstep (by simp)

theorem lzwInit_codeSize (img : List Nat) (m : Nat) (s0 : LZWState)
    (h : lzwInit img m = some s0) : s0.codeSize = m + 1 := by
  simp only [lzwInit] at h
  repeat' split at h
  all_goals
    first
    | (simp only [Option.some.injEq] at h; subst h; rfl)
    | exact absurd h (by simp)

theorem lzw_clear_aux (img : List Nat) (m : Nat) (s s' : LZWState)
    (hclear : (nextCode img s.bitPos s.codeSize).1 = some (2 ^ m))
    (hstep : lzwStep img m s = .cont s') :
    s'.dict = initDict (2 ^ m) ∧ s'.codeSize = m + 1 := by
  simp only [lzwStep] at hstep
  split at hstep
  · exact absurd hstep (by simp)
  · rename_i code bp heq
    rw [heq] at hclear
    simp only [Option.some.injEq] at hclear
    rw [if_pos hclear] at hstep
    split at hstep
    · exact absurd hstep (by simp)
    · split at hstep
      · exact absurd hstep (by simp)
      · injection hstep with h'
        subst h'
        exact ⟨rfl, rfl⟩

/-- C4: throughout `_lzw_decode` with `2 ≤ min_code_size ≤ 8`, `code_size`
starts at `min_code_size + 1`; on every decoding-loop iteration that
continues, it is reset to `min_code_size + 1` exactly when the code read
is the clear code `2 ^ min_code_size`, and otherwise it grows by exactly 1
precisely when the dictionary length has just reached `2 ^ code_size` with
`code_size < 12` (so outside a clear-code reset it never decreases); and
starting from any `code_size ≤ 12` it never exceeds 12 bits. -/
theorem lzw_code_size_invariant (img : List Nat) (m : Nat) (hm2 : 2 ≤ m) (hm8 : m ≤ 8) :
    (∀ s0, lzwInit img m = some s0 → s0.codeSize = m + 1) ∧
    (∀ s s', lzwStep img m s = .cont s' →
      ((nextCode img s.bitPos s.codeSize).1 = some (2 ^ m) ∧ s'.codeSize = m + 1) ∨
      ((nextCode img s.bitPos s.codeSize).1 ≠ some (2 ^ m) ∧
        s'.codeSize = if s'.dict.length = 2 ^ s.codeSize ∧ s.codeSize < 12
                      then s.codeSize + 1 else s.codeSize)) ∧
    (∀ s s', s.codeSize ≤ 12 → lzwStep img m s = .cont s' → s'.codeSize ≤ 12) := by
  refine ⟨lzwInit_codeSize img m, fun s s' h => lzw_code_size_aux img m s s' h, ?_⟩
  intro s s' h12 hstep
  rcases lzw_code_size_aux img m s s' hstep with ⟨_, h⟩ | ⟨_, h⟩
  · omega
  · rw [h]
    split
    · rename_i hsp
      obtain ⟨_, hlt⟩ := hsp
      omega
    · omega

theorem lzw_code_size_invariant_witness :
    exS0.codeSize = 2 + 1 ∧
    (((nextCode exImg exS1.bitPos exS1.codeSize).1 = some (2 ^ 2) ∧ exS2.codeSize = 2 + 1) ∨
      ((nextCode exImg exS1.bitPos exS1.codeSize).1 ≠ some (2 ^ 2) ∧
        exS2.codeSize = if exS2.dict.length = 2 ^ exS1.codeSize ∧ exS1.codeSize < 12
                        then exS1.codeSize + 1 else exS1.codeSize)) ∧
    exS2.codeSize ≤ 12 :=
  ⟨(lzw_code_size_invariant exImg 2 (by decide) (by decide)).1 exS0 (by decide),
   (lzw_code_size_invariant exImg 2 (by decide) (by decide)).2.1 exS1 exS2 (by decide),
   (lzw_code_size_invariant exImg 2 (by decide) (by decide)).2.2 exS1 exS2 (by decide) (by decide)⟩

/-- C5: whenever the decoding loop of `_lzw_decode` (with
`2 ≤ min_code_size ≤ 8`) reads a clear code mid-stream and continues, the
new state's dictionary is exactly the freshly initialised one — the root
single-index entries `0 .. clear_code - 1` followed by the two `None`
placeholders standing for the clear and end codes — and the code size is
reset to `min_code_size + 1`. -/
theorem lzw_clear_code_resets (img : List Nat) (m : Nat) (s s' : LZWState)
    (hm2 : 2 ≤ m) (hm8 : m ≤ 8)
    (hclear : (nextCode img s.bitPos s.codeSize).1 = some (2 ^ m))
    (hstep : lzwStep img m s = .cont s') :
    s'.dict = initDict (2 ^ m) ∧ s'.codeSize = m + 1 ∧
    s'.dict.length = 2 ^ m + 2 ∧
    (∀ i, i < 2 ^ m → s'.dict.getD i none = some [i]) ∧
    s'.dict.getD (2 ^ m) none = none ∧
    s'.dict.getD (2 ^ m + 1) none = none := by
  obtain ⟨hd, hcs⟩ := lzw_clear_aux img m s s' hclear hstep
  refine ⟨hd, hcs, ?_, ?_, ?_, ?_⟩ <;> rw [hd]
  · exact initDict_length _
  · intro i hi
    exact initDict_getD_lt _ i hi
  · exact initDict_getD_clear _
  · exact initDict_getD_end _

theorem lzw_clear_code_resets_witness :
    exS1.dict = initDict (2 ^ 2) ∧ exS1.codeSize = 2 + 1 ∧
    exS1.dict.length = 2 ^ 2 + 2 ∧ exS1.dict.getD 1 none = some [1] ∧
    exS1.dict.getD (2 ^ 2) none = none ∧ exS1.dict.getD (2 ^ 2 + 1) none = none := by
  obtain ⟨h1, h2, h3, h4, h5, h6⟩ :=
    lzw_clear_code_resets exImg 2 exS0 exS1 (by decide) (by decide) (by decide) (by decide)
  exact ⟨h1, h2, h3, h4 1 (by decide), h5, h6⟩

theorem initDict_bounded (c : Nat) : ∀ e ∈ initDict c, entryBounded c e := by
  intro e he
  rcases List.mem_append.1 he with hm | hm
  · obtain ⟨i, hi, rfl⟩ := List.mem_map.1 hm
    intro j hj
    rw [List.mem_singleton.1 hj]
    exact List.mem_range.1 hi
  · simp only [List.mem_cons, List.mem_singleton] at hm
    rcases hm with rfl | rfl | hm
    · trivial
    · trivial
    · exact absurd hm (List.not_mem_nil e)

theorem dict_getD_bounded (c : Nat) (d : List (Option (List Nat)))
    (hd : ∀ e ∈ d, entryBounded c e) (n : Nat) (cur : List Nat)
    (hn : n < d.length) (h : d.getD n none = some cur) :
    ∀ i ∈ cur, i < c := by
  have hmem : d.getD n none ∈ d := by
    rw [List.getD_eq_getElem _ _ hn]
    exact List.getElem_mem hn
  rw [h] at hmem
  exact hd _ hmem

theorem lzwInit_bounded (img : List Nat) (m : Nat) (s0 : LZWState)
    (h : lzwInit img m = some s0) : stateBounded (2 ^ m) s0 := by
  simp only [lzwInit] at h
  repeat' split at h
  · exact absurd h (by simp)
  · exact absurd h (by simp)
  · exact absurd h (by simp)
  · exact absurd h (by simp)
  · rename_i c bp' heq2 hcne hvalid
    simp only [Option.some.injEq] at h
    subst h
    push_neg at hvalid
    obtain ⟨hlen, hne⟩ := hvalid
    rcases hx : (initDict (2 ^ m)).getD c none with _ | cur
    · exact absurd hx hne
    · have hcur : ∀ i ∈ cur, i < 2 ^ m :=
        dict_getD_bounded _ _ (initDict_bounded _) c cur hlen hx
      refine ⟨initDict_bounded _, ?_, ?_⟩ <;> simpa using hcur

theorem lzwStep_bounded (img : List Nat) (m : Nat) (s : LZWState)
    (hs : stateBounded (2 ^ m) s) :
    (∀ s', lzwStep img m s = .cont s' → stateBounded (2 ^ m) s') ∧
    (∀ out, lzwStep img m s = .stop out → ∀ i ∈ out, i < 2 ^ m) := by
  obtain ⟨hdict, hprev, hout⟩ := hs
  constructor
  · intro s' hstep
    simp only [lzwStep] at hstep
    split at hstep
    · exact absurd hstep (by simp)
    · rename_i code bp heq
      by_cases hc : code = 2 ^ m
      · rw [if_pos hc] at hstep
        split at hstep
        · exact absurd hstep (by simp)
        · rename_i c2 bp2 heq2
          split at hstep
          · exact absurd hstep (by simp)
          · injection hstep with h'
            subst h'
            have hcur : ∀ i ∈ (if (initDict (2 ^ m)).length ≤ c2 ∨
                  (initDict (2 ^ m)).getD c2 none = none then []
                else ((initDict (2 ^ m)).getD c2 none).getD []), i < 2 ^ m := by
              split
              · intro i hi
                exact absurd hi (List.not_mem_nil i)
              · rename_i hcond
                push_neg at hcond
                obtain ⟨hlen, hne⟩ := hcond
                rcases hx : (initDict (2 ^ m)).getD c2 none with _ | cur
                · exact absurd hx hne
                · rw [Option.getD_some]
                  exact dict_getD_bounded _ _ (initDict_bounded _) c2 cur hlen hx
            refine ⟨initDict_bounded _, hcur, ?_⟩
            intro i hi
            rcases List.mem_append.1 hi with hi | hi
            · exact hout i hi
            · exact hcur i hi
      · rw [if_neg hc] at hstep
        split at hstep
        · exact absurd hstep (by simp)
        · split at hstep
          · rename_i cur heqe
            have hlt : code < s.dict.length := by
              by_contra hlt
              rw [if_neg hlt] at heqe
              cases heqe
            have hgetd : s.dict.getD code none = some cur := by rwa [if_pos hlt] at heqe
            have hcur : ∀ i ∈ cur, i < 2 ^ m :=
              dict_getD_bounded _ _ hdict code cur hlt hgetd
            split at hstep
            · exact absurd hstep (by simp)
            · rename_i c0 rest
              injection hstep with h'
              subst h'
              have hnew : ∀ i ∈ s.prev ++ [c0], i < 2 ^ m := by
                intro i hi
                rcases List.mem_append.1 hi with hi | hi
                · exact hprev i hi
                · rw [List.mem_singleton.1 hi]
                  exact hcur c0 (by simp)
              refine ⟨?_, hcur, ?_⟩
              · intro e he
                rcases List.mem_append.1 he with he | he
                · exact hdict e he
                · rw [List.mem_singleton.1 he]
                  exact hnew
              · intro i hi
                rcases List.mem_append.1 hi with hi | hi
                · exact hout i hi
                · exact hcur i hi
          · split at hstep
            · split at hstep
              · exact absurd hstep (by simp)
              · rename_i p0 rest hpv
                injection hstep with h'
                subst h'
                have hp0 : p0 ∈ s.prev := by rw [hpv]; simp
                have hcur : ∀ i ∈ s.prev ++ [p0], i < 2 ^ m := by
                  intro i hi
                  rcases List.mem_append.1 hi with hi | hi
                  · exact hprev i hi
                  · rw [List.mem_singleton.1 hi]
                    exact hprev p0 hp0
                refine ⟨?_, hcur, ?_⟩
                · intro e he
                  rcases List.mem_append.1 he with he | he
                  · exact hdict e he
                  · rw [List.mem_singleton.1 he]
                    exact hcur
                · intro i hi
                  rcases List.mem_append.1 hi with hi | hi
                  · exact hout i hi
                  · exact hcur i hi
            · exact absurd hstep (by simp)
  · intro out hstep
    simp only [lzwStep] at hstep
    repeat' split at hstep
    all_goals first
      | (injection hstep with h'; subst h'; exact hout)
      | injection hstep

theorem lzwRunF_bounded (img : List Nat) (m e : Nat) :
    ∀ fuel s l, stateBounded (2 ^ m) s → lzwRunF img m e fuel s = some l →
      ∀ i ∈ l, i < 2 ^ m := by
  intro fuel
  induction fuel with
  | zero =>
    intro s l hs h
    simp only [lzwRunF] at h
    split at h
    · simp only [Option.some.injEq] at h
      subst h
      intro i hi
      exact hs.2.2 i (List.take_subset _ _ hi)
    · exact absurd h (by simp)
  | succ fuel ih =>
    intro s l hs h
    simp only [lzwRunF] at h
    split at h
    · simp only [Option.some.injEq] at h
      subst h
      intro i hi
      exact hs.2.2 i (List.take_subset _ _ hi)
    · split at h
      · rename_i out hstop
        simp only [Option.some.injEq] at h
        subst h
        intro i hi
        exact (lzwStep_bounded img m s hs).2 out hstop i (List.take_subset _ _ hi)
      · exact absurd h (by simp)
      · rename_i s' hcont
        exact ih s' l ((lzwStep_bounded img m s hs).1 s' hcont) h

/-- C10: with `2 ≤ min_code_size ≤ 8`, every element of a list returned by
`_lzw_decode` is a colour-table index in `0 .. 2 ^ min_code_size - 1`:
every dictionary entry is built from the root single-index entries, so no
out-of-range index can be emitted. -/
theorem lzw_decode_index_range (img : List Nat) (m e : Nat) (l : List Nat)
    (hm2 : 2 ≤ m) (hm8 : m ≤ 8) (h : lzw_decode img m e = some l) :
    ∀ i ∈ l, i < 2 ^ m := by
  unfold lzw_decode at h
  rw [if_neg (by omega)] at h
  rcases hi : lzwInit img m with _ | s
  · rw [hi] at h
    simp only [Option.some.injEq] at h
    subst h
    intro i hi'
    exact absurd hi' (List.not_mem_nil i)
  · rw [hi] at h
    exact lzwRunF_bounded img m e _ s l (lzwInit_bounded img m s hi) h

theorem lzw_decode_index_range_witness : (1 : Nat) < 2 ^ 2 :=
  lzw_decode_index_range [41] 2 1 [1] (by decide) (by decide) (by decide) 1 (by decide)

/-- Sufficient fuel makes `readSubblocksF` fuel-independent, so
`readSubblocks` is the function computed by the source's unbounded loop. -/
theorem readSubblocksF_fuel_irrel (data : List Nat) :
    ∀ f₁ f₂ pos, data.length - pos ≤ f₁ → data.length - pos ≤ f₂ →
      readSubblocksF data f₁ pos = readSubblocksF data f₂ pos := by
  intro f₁
  induction f₁ with
  | zero =>
    intro f₂ pos h1 h2
    cases f₂ with
    | zero => rfl
    | succ f₂ =>
      simp only [readSubblocksF]
      rw [if_neg (by omega)]
  | succ f₁ ih =>
    intro f₂ pos h1 h2
    cases f₂ with
    | zero =>
      simp only [readSubblocksF]
      rw [if_neg (by omega)]
    | succ f₂ =>
      simp only [readSubblocksF]
      by_cases hp : pos < data.length
      · rw [if_pos hp, if_pos hp]
        by_cases hb : data.getD pos 0 = 0
        · rw [if_pos hb, if_pos hb]
        · rw [if_neg hb, if_neg hb, ih f₂ (pos + 1 + data.getD pos 0) (by omega) (by omega)]
      · rw [if_neg hp, if_neg hp]

/-- C7: a stream shorter than 13 bytes, or one whose first 6 bytes are
neither `GIF87a` nor `GIF89a`, makes `gif()` return immediately with the
empty effect trace — zero pixel writes, zero `fill_rect` calls, zero
flushes — and zero passes, leaving the display buffer unchanged. -/
theorem gif_rejects_bad_header (data : List Nat) (x y : Int) (loop : Int)
    (dm : Option Int) (cl : Bool) (crop : Option (Int × Int × Int × Int)) (fuel : Nat)
    (h : data.length < 13 ∨ (data.take 6 ≠ gifHeader87 ∧ data.take 6 ≠ gifHeader89)) :
    gifRun data x y loop dm cl crop fuel = .done [] 0 := by
  unfold gifRun
  rcases h with h | ⟨h1, h2⟩
  · rw [if_pos h]
  · by_cases hl : data.length < 13
    · rw [if_pos hl]
    · rw [if_neg hl, if_pos (not_or.mpr ⟨h1, h2⟩)]

theorem gif_rejects_bad_header_witness :
    gifRun [1, 2, 3] 0 0 1 none false none 1 = .done [] 0 :=
  gif_rejects_bad_header [1, 2, 3] 0 0 1 none false none 1 (Or.inl (by decide))

/-- C2 counterexample: on `c2data` the byte after the header is the
unknown top-level value `0x00`; the claim says the pass stops there, with
no further blocks processed, but in fact the image descriptor after it is
still decoded, drawn and flushed — the trace contains a pixel write and a
flush. -/
theorem gif_unknown_block_counterexample :
    gifRun c2data 0 0 1 none false none 1 =
      .done [.pixel 0 0 1, .flush, .sleep 50] 1 ∧
    Eff.flush ∈ (gifRun c2data 0 0 1 none false none 1).effs ∧
    Eff.pixel 0 0 1 ∈ (gifRun c2data 0 0 1 none false none 1).effs :=
  ⟨by decide, by decide, by decide⟩

/-- C2 amended: a top-level block byte other than `0x3B`, `0x21` and
`0x2C` is not treated as end-of-stream; no branch of the scanner matches
it, so the loop iteration just advances the cursor past that single byte
and keeps scanning, with unchanged per-pass state and no effects.  (The
pass still cannot loop forever on such bytes: the cursor strictly
increases.) -/
theorem gif_unknown_block_skipped (data : List Nat) (x y : Int) (dm : Option Int)
    (cl : Bool) (crop : Option (Int × Int × Int × Int)) (bg : Nat) (p : Nat)
    (transp : Option Nat) (fd : Int) (acc : List Eff)
    (hp : p < data.length)
    (h3B : data.getD p 0 ≠ 0x3B) (h21 : data.getD p 0 ≠ 0x21) (h2C : data.getD p 0 ≠ 0x2C) :
    scanStep data x y dm cl crop bg p transp fd acc = .next (p + 1) transp fd acc := by
  simp only [scanStep]
  rw [if_pos hp, if_neg h3B, if_neg h21, if_neg h2C]

theorem gif_unknown_block_skipped_witness :
    scanStep c2data 0 0 none false none 0 13 none 0 [] = .next 14 none 0 [] :=
  gif_unknown_block_skipped c2data 0 0 none false none 0 13 none 0 []
    (by decide) (by decide) (by decide) (by decide)

/-- C1 counterexample: in `c1data`, frame 2 has no GCE of its own, yet it
inherits frame 1's GCE state: its pixel (index 1 = the inherited
transparency index) is skipped instead of being written as colour 1, and
its delay is the inherited 100 ms instead of the 50 ms default — the
trace ends `flush, sleep 100` with no second pixel write, and contains
neither `sleep 50` nor the write `pixel 0 0 1` that the claim predicts
for frame 2. -/
theorem gif_gce_persistence_counterexample :
    gifRun c1data 0 0 1 none false none 1 =
      .done [.pixel 0 0 0, .flush, .sleep 100, .flush, .sleep 100] 1 ∧
    Eff.sleep 50 ∉ (gifRun c1data 0 0 1 none false none 1).effs ∧
    Eff.pixel 0 0 1 ∉ (gifRun c1data 0 0 1 none false none 1).effs :=
  ⟨by decide, by decide, by decide⟩

/-- C1 amended: the pending GCE state (transparency index and frame
delay) is initialised only at the start of each pass (lines 266-267,
visible in `runPass`) and is **not** cleared when an Image Descriptor is
drawn: whenever the scanner consumes an Image Descriptor block and
continues, the continuation's transparency index and frame delay are
exactly the ones the iteration started with, so a frame without its own
GCE reuses whatever an earlier GCE of the same pass left pending. -/
theorem gif_gce_state_persists (data : List Nat) (x y : Int) (dm : Option Int)
    (cl : Bool) (crop : Option (Int × Int × Int × Int)) (bg : Nat) (p : Nat)
    (transp : Option Nat) (fd : Int) (acc : List Eff) (p' : Nat)
    (transp' : Option Nat) (fd' : Int) (acc' : List Eff)
    (hp : p < data.length) (hb : data.getD p 0 = 0x2C)
    (hstep : scanStep data x y dm cl crop bg p transp fd acc = .next p' transp' fd' acc') :
    transp' = transp ∧ fd' = fd := by
  simp only [scanStep] at hstep
  rw [if_pos hp, if_neg (by rw [hb]; decide), if_neg (by rw [hb]; decide), if_pos hb] at hstep
  simp only [imageStep] at hstep
  repeat' split at hstep
  all_goals
    first
    | (injection hstep with h1 h2 h3 h4
       exact ⟨h2.symm, h3.symm⟩)
    | exact absurd hstep (by simp)

theorem gif_gce_state_persists_witness :
    (some 1 : Option Nat) = some 1 ∧ (100 : Int) = 100 :=
  gif_gce_state_persists c1data 0 0 none false none 0 35 (some 1) 100 []
    49 (some 1) 100 [Eff.flush, Eff.sleep 100] (by decide) (by decide) (by decide)

/-- Any pixel write produced by one cell visit under a crop rectangle is
inside the rectangle (both bounds inclusive). -/
theorem cellEff_crop_bounds (indices : List Nat) (bg : Nat) (transp : Option Nat)
    (x0 y0 x1 y1 px py : Int) (pos : Nat) (a b : Int) (c : Nat)
    (h : Eff.pixel a b c ∈ cellEff indices bg transp (some (x0, y0, x1, y1)) px py pos) :
    x0 ≤ a ∧ a ≤ x1 ∧ y0 ≤ b ∧ b ≤ y1 := by
  simp only [cellEff] at h
  split at h
  · split at h
    · exact absurd h (List.not_mem_nil _)
    · split at h
      · exact absurd h (List.not_mem_nil _)
      · rename_i hc
        rw [List.mem_singleton] at h
        injection h with h1 h2 h3
        push_neg at hc
        subst h1
        subst h2
        exact ⟨hc.1, hc.2.1, hc.2.2.1, hc.2.2.2⟩
  · exact absurd h (List.not_mem_nil _)

theorem rowFold_mem (F : Nat → List Eff) :
    ∀ (l : List Nat) (acc : List Eff) (e : Eff),
      e ∈ l.foldl (fun acc xx => acc ++ F xx) acc →
      e ∈ acc ∨ ∃ xx ∈ l, e ∈ F xx := by
  intro l
  induction l with
  | nil =>
    intro acc e h
    exact Or.inl h
  | cons hd tl ih =>
    intro acc e h
    rcases ih (acc ++ F hd) e h with h' | ⟨xx, hxx, he⟩
    · rcases List.mem_append.1 h' with h'' | h''
      · exact Or.inl h''
      · exact Or.inr ⟨hd, by simp, h''⟩
    · exact Or.inr ⟨xx, by simp [hxx], he⟩

/-- Every effect of a composited frame comes from one cell visit. -/
theorem frameEffs_mem (indices : List Nat) (bg : Nat) (transp : Option Nat)
    (crop : Option (Int × Int × Int × Int)) (baseX baseY : Int) (width height : Nat) :
    ∀ e ∈ frameEffs indices bg transp crop baseX baseY width height,
      ∃ yy xx : Nat, e ∈ cellEff indices bg transp crop (baseX + (xx : Int)) (baseY + (yy : Int))
        (yy * width + xx) := by
  unfold frameEffs
  suffices hgen : ∀ (l : List Nat) (acc : List Eff),
      (∀ e ∈ acc, ∃ yy xx : Nat, e ∈ cellEff indices bg transp crop (baseX + (xx : Int))
        (baseY + (yy : Int)) (yy * width + xx)) →
      ∀ e ∈ l.foldl (fun (accR : List Eff) (yy : Nat) =>
          (List.range width).foldl (fun (acc : List Eff) (xx : Nat) =>
            acc ++ cellEff indices bg transp crop (baseX + (xx : Int)) (baseY + (yy : Int))
              ((yy * width + xx : Nat))) accR) acc,
        ∃ yy xx : Nat, e ∈ cellEff indices bg transp crop (baseX + (xx : Int))
          (baseY + (yy : Int)) (yy * width + xx) by
    exact hgen (List.range height) [] (fun e he => absurd he (List.not_mem_nil _))
  intro l
  induction l with
  | nil =>
    intro acc hacc e he
    exact hacc e he
  | cons hd tl ih =>
    intro acc hacc e he
    refine ih _ ?_ e he
    intro e' he'
    rcases rowFold_mem
        (fun xx => cellEff indices bg transp crop (baseX + (xx : Int)) (baseY + (hd : Int))
          ((hd * width + xx : Nat)))
        (List.range width) acc e' he' with h' | ⟨xx, hxx, hcell⟩
    · exact hacc e' h'
    · exact ⟨hd, xx, hcell⟩

/-- The extension branch never adds effects: its outcome carries exactly
the trace it was given. -/
theorem extensionStep_effs (data : List Nat) (q : Nat) (t : Option Nat) (f : Int)
    (acc : List Eff) (st : PassStep) (h : extensionStep data q t f acc = st) :
    st.effs = acc := by
  simp only [extensionStep] at h
  repeat' split at h
  all_goals
    subst h
    rfl

theorem imageStep_crop_bounds (data : List Nat) (x y : Int) (dm : Option Int) (cl : Bool)
    (bg : Nat) (x0 y0 x1 y1 : Int) (p : Nat) (t : Option Nat) (f : Int) (acc : List Eff)
    (st : PassStep)
    (h : imageStep data x y dm cl (some (x0, y0, x1, y1)) bg p t f acc = st)
    (hacc : ∀ (a b : Int) (c : Nat), Eff.pixel a b c ∈ acc →
      x0 ≤ a ∧ a ≤ x1 ∧ y0 ≤ b ∧ b ≤ y1) :
    ∀ (a b : Int) (c : Nat), Eff.pixel a b c ∈ st.effs →
      x0 ≤ a ∧ a ≤ x1 ∧ y0 ≤ b ∧ b ≤ y1 := by
  simp only [imageStep] at h
  repeat' split at h
  all_goals subst h
  all_goals intro a b c hmem
  all_goals
    first
    | exact hacc a b c hmem
    | (simp only [PassStep.effs] at hmem
       rcases List.mem_append.1 hmem with h' | h'
       · rcases List.mem_append.1 h' with h' | h'
         · rcases List.mem_append.1 h' with h' | h'
           · exact hacc a b c h'
           · first
             | exact absurd h' (List.not_mem_nil _)
             | (rw [List.mem_singleton] at h'; cases h')
         · obtain ⟨yy, xx, hcell⟩ := frameEffs_mem _ _ _ _ _ _ _ _ _ h'
           exact cellEff_crop_bounds _ _ _ _ _ _ _ _ _ _ _ _ _ hcell
       · simp at h')

theorem scanStep_crop_bounds (data : List Nat) (x y : Int) (dm : Option Int) (cl : Bool)
    (bg : Nat) (x0 y0 x1 y1 : Int) (p : Nat) (t : Option Nat) (f : Int) (acc : List Eff)
    (st : PassStep)
    (h : scanStep data x y dm cl (some (x0, y0, x1, y1)) bg p t f acc = st)
    (hacc : ∀ (a b : Int) (c : Nat), Eff.pixel a b c ∈ acc →
      x0 ≤ a ∧ a ≤ x1 ∧ y0 ≤ b ∧ b ≤ y1) :
    ∀ (a b : Int) (c : Nat), Eff.pixel a b c ∈ st.effs →
      x0 ≤ a ∧ a ≤ x1 ∧ y0 ≤ b ∧ b ≤ y1 := by
  simp only [scanStep] at h
  repeat' split at h
  all_goals
    first
    | (subst h
       intro a b c hm
       exact hacc a b c hm)
    | (intro a b c hm
       rw [extensionStep_effs _ _ _ _ _ _ h] at hm
       exact hacc a b c hm)
    | exact imageStep_crop_bounds _ _ _ _ _ _ _ _ _ _ _ _ _ _ _ h hacc

theorem runPassF_crop_bounds (data : List Nat) (x y : Int) (dm : Option Int) (cl : Bool)
    (bg : Nat) (x0 y0 x1 y1 : Int) :
    ∀ (fuel p : Nat) (t : Option Nat) (f : Int) (acc : List Eff) (res : PassRes),
      runPassF data x y dm cl (some (x0, y0, x1, y1)) bg fuel p t f acc = res →
      (∀ (a b : Int) (c : Nat), Eff.pixel a b c ∈ acc →
        x0 ≤ a ∧ a ≤ x1 ∧ y0 ≤ b ∧ b ≤ y1) →
      ∀ (a b : Int) (c : Nat), Eff.pixel a b c ∈ res.effs →
        x0 ≤ a ∧ a ≤ x1 ∧ y0 ≤ b ∧ b ≤ y1 := by
  intro fuel
  induction fuel with
  | zero =>
    intro p t f acc res heq hacc a b c h
    simp only [runPassF] at heq
    subst heq
    exact hacc a b c h
  | succ fuel ih =>
    intro p t f acc res heq hacc a b c h
    rcases hs : scanStep data x y dm cl (some (x0, y0, x1, y1)) bg p t f acc
      with r | ⟨p', t', f', acc'⟩
    · have heq' : r = res := by
        simp only [runPassF] at heq
        rw [hs] at heq
        exact heq
      subst heq'
      exact scanStep_crop_bounds _ _ _ _ _ _ _ _ _ _ _ _ _ _ _ hs hacc a b c h
    · have heq' : runPassF data x y dm cl (some (x0, y0, x1, y1)) bg fuel p' t' f' acc' = res := by
        simp only [runPassF] at heq
        rw [hs] at heq
        exact heq
      refine ih _ _ _ _ _ heq' ?_ a b c h
      intro a' b' c' h'
      exact scanStep_crop_bounds _ _ _ _ _ _ _ _ _ _ _ _ _ _ _ hs hacc a' b' c' h'

theorem gifAnimF_crop_bounds (data : List Nat) (x y : Int) (loop : Int) (dm : Option Int)
    (cl : Bool) (bg startPos : Nat) (x0 y0 x1 y1 : Int) :
    ∀ (fuel loopsDone : Nat) (acc : List Eff),
      (∀ (a b : Int) (c : Nat), Eff.pixel a b c ∈ acc →
        x0 ≤ a ∧ a ≤ x1 ∧ y0 ≤ b ∧ b ≤ y1) →
      ∀ (a b : Int) (c : Nat),
        Eff.pixel a b c ∈
          (gifAnimF data x y loop dm cl (some (x0, y0, x1, y1)) bg startPos
            fuel loopsDone acc).effs →
        x0 ≤ a ∧ a ≤ x1 ∧ y0 ≤ b ∧ b ≤ y1 := by
  have hpass : ∀ (effs : List Eff),
      runPass data x y dm cl (some (x0, y0, x1, y1)) bg startPos = .ok effs ∨
      runPass data x y dm cl (some (x0, y0, x1, y1)) bg startPos = .crash effs →
      ∀ (a b : Int) (c : Nat), Eff.pixel a b c ∈ effs →
        x0 ≤ a ∧ a ≤ x1 ∧ y0 ≤ b ∧ b ≤ y1 := by
    intro effs hre a b c hm
    unfold runPass at hre
    rcases hre with hre | hre <;>
      exact runPassF_crop_bounds data x y dm cl bg x0 y0 x1 y1 _ _ _ _ _ _ hre
        (fun _ _ _ hh => absurd hh (List.not_mem_nil _)) a b c hm
  intro fuel
  induction fuel with
  | zero =>
    intro loopsDone acc hacc a b c h
    simp only [gifAnimF] at h
    split at h
    · exact hacc a b c (by simpa only [GifRes.effs] using h)
    · exact hacc a b c (by simpa only [GifRes.effs] using h)
  | succ fuel ih =>
    intro loopsDone acc hacc a b c h
    simp only [gifAnimF] at h
    split at h
    · split at h
      · rename_i effs heq
        have h' : Eff.pixel a b c ∈ acc ++ effs := by simpa only [GifRes.effs] using h
        rcases List.mem_append.1 h' with h' | h'
        · exact hacc a b c h'
        · exact hpass effs (Or.inr heq) a b c h'
      · rename_i effs heq
        refine ih _ _ ?_ a b c h
        intro a' b' c' h'
        rcases List.mem_append.1 h' with h' | h'
        · exact hacc a' b' c' h'
        · exact hpass effs (Or.inl heq) a' b' c' h'
    · exact hacc a b c (by simpa only [GifRes.effs] using h)

/-- C8: with a crop rectangle `(x0, y0, x1, y1)` supplied, no per-pixel
write of any frame of a `gif()` call lands outside it: every `pixel`
effect of the whole run satisfies `x0 ≤ x ≤ x1` and `y0 ≤ y ≤ y1` (both
bounds inclusive, so boundary writes are allowed — the witness exhibits a
run writing at `(x0, y0)` itself). -/
theorem gif_crop_bounds (data : List Nat) (x y : Int) (loop : Int) (dm : Option Int)
    (cl : Bool) (x0 y0 x1 y1 : Int) (fuel : Nat) (a b : Int) (c : Nat)
    (h : Eff.pixel a b c ∈ (gifRun data x y loop dm cl (some (x0, y0, x1, y1)) fuel).effs) :
    x0 ≤ a ∧ a ≤ x1 ∧ y0 ≤ b ∧ b ≤ y1 := by
  unfold gifRun at h
  split at h
  · exact absurd (by simpa only [GifRes.effs] using h) (List.not_mem_nil _)
  · split at h
    · exact absurd (by simpa only [GifRes.effs] using h) (List.not_mem_nil _)
    · exact gifAnimF_crop_bounds data x y loop dm cl _ _ x0 y0 x1 y1 fuel 0 []
        (fun _ _ _ hh => absurd hh (List.not_mem_nil _)) a b c h

theorem gif_crop_bounds_witness :
    (0 : Int) ≤ 0 ∧ (0 : Int) ≤ 0 ∧ (0 : Int) ≤ 0 ∧ (0 : Int) ≤ 0 :=
  gif_crop_bounds c2data 0 0 1 none false 0 0 0 0 1 0 0 1 (by decide)

theorem gifAnimF_done_count (data : List Nat) (x y : Int) (dm : Option Int) (cl : Bool)
    (crop : Option (Int × Int × Int × Int)) (bg startPos : Nat) (effs : List Eff)
    (hpass : runPass data x y dm cl crop bg startPos = .ok effs) (n : Nat) :
    ∀ (fuel loopsDone : Nat) (acc : List Eff), loopsDone ≤ n → n - loopsDone ≤ fuel →
      (gifAnimF data x y (n : Int) dm cl crop bg startPos fuel loopsDone acc).passes =
        some n := by
  intro fuel
  induction fuel with
  | zero =>
    intro loopsDone acc h1 h2
    have h3 : loopsDone = n := by omega
    subst h3
    simp only [gifAnimF]
    rw [if_neg (by omega)]
    rfl
  | succ fuel ih =>
    intro loopsDone acc h1 h2
    by_cases hlt : loopsDone < n
    · simp only [gifAnimF]
      rw [if_pos (Or.inr (by exact_mod_cast hlt)), hpass]
      exact ih (loopsDone + 1) (acc ++ effs) (by omega) (by omega)
    · have h3 : loopsDone = n := by omega
      subst h3
      simp only [gifAnimF]
      rw [if_neg (by omega)]
      rfl

theorem gifAnimF_neg_spin (data : List Nat) (x y : Int) (dm : Option Int) (cl : Bool)
    (crop : Option (Int × Int × Int × Int)) (bg startPos : Nat) (effs : List Eff)
    (hpass : runPass data x y dm cl crop bg startPos = .ok effs)
    (loop : Int) (hneg : loop < 0) :
    ∀ (fuel loopsDone : Nat) (acc : List Eff),
      (gifAnimF data x y loop dm cl crop bg startPos fuel loopsDone acc).isSpin = true := by
  intro fuel
  induction fuel with
  | zero =>
    intro loopsDone acc
    simp only [gifAnimF]
    rw [if_pos (Or.inl hneg)]
    rfl
  | succ fuel ih =>
    intro loopsDone acc
    simp only [gifAnimF]
    rw [if_pos (Or.inl hneg), hpass]
    exact ih (loopsDone + 1) (acc ++ effs)

/-- C9: for a stream passing the header check whose passes complete
without raising, `gif()` with a non-negative `loop = n` runs the
animation loop for exactly `n` full passes over the block stream and then
returns (so `loop = 0` returns after zero passes), while a negative
`loop` never lets the loop condition become false: for every iteration
bound the bounded unrolling is still running (`spin`), i.e. the call
never terminates on its own. -/
theorem gif_loop_pass_count (data : List Nat) (x y : Int) (dm : Option Int) (cl : Bool)
    (crop : Option (Int × Int × Int × Int)) (effs : List Eff)
    (hlen : 13 ≤ data.length)
    (hsig : data.take 6 = gifHeader87 ∨ data.take 6 = gifHeader89)
    (hpass : runPass data x y dm cl crop (data.getD 11 0) (gifStartPos data) = .ok effs) :
    (∀ n fuel : Nat, n ≤ fuel →
      (gifRun data x y (n : Int) dm cl crop fuel).passes = some n) ∧
    (∀ loop : Int, loop < 0 → ∀ fuel : Nat,
      (gifRun data x y loop dm cl crop fuel).isSpin = true) := by
  constructor
  · intro n fuel hf
    unfold gifRun
    rw [if_neg (by omega), if_neg (not_not_intro hsig)]
    exact gifAnimF_done_count data x y dm cl crop _ _ effs hpass n fuel 0 []
      (by omega) (by omega)
  · intro loop hneg fuel
    unfold gifRun
    rw [if_neg (by omega), if_neg (not_not_intro hsig)]
    exact gifAnimF_neg_spin data x y dm cl crop _ _ effs hpass loop hneg fuel 0 []

theorem gif_loop_pass_count_witness :
    (gifRun c9data 0 0 3 none false none 3).passes = some 3 ∧
    (gifRun c9data 0 0 (-1) none false none 5).isSpin = true :=
  ⟨(gif_loop_pass_count c9data 0 0 none false none [] (by decide) (by decide)
      (by decide)).1 3 3 (by decide),
   (gif_loop_pass_count c9data 0 0 none false none [] (by decide) (by decide)
      (by decide)).2 (-1) (by decide) 5⟩


theorem skipSubblocksF_lt (data : List Nat) :
    ∀ fuel pos r, skipSubblocksF data fuel pos = some r → pos < r := by
  intro fuel
  induction fuel with
  | zero =>
    intro pos r h
    exact absurd h (by simp [skipSubblocksF])
  | succ fuel ih =>
    intro pos r h
    simp only [skipSubblocksF] at h
    split at h
    · split at h
      · simp only [Option.some.injEq] at h
        omega
      · have := ih _ _ h
        omega
    · exact absurd h (by simp)

theorem readSubblocksF_ge (data : List Nat) :
    ∀ fuel pos, pos ≤ (readSubblocksF data fuel pos).2 := by
  intro fuel
  induction fuel with
  | zero =>
    intro pos
    simp [readSubblocksF]
  | succ fuel ih =>
    intro pos
    simp only [readSubblocksF]
    split
    · split
      · simp
      · have := ih (pos + 1 + data.getD pos 0)
        show pos ≤ (readSubblocksF data fuel (pos + 1 + data.getD pos 0)).2
        omega
    · simp

set_option maxHeartbeats 2000000 in
/-- The scanner's cursor strictly increases whenever a loop iteration
continues (and continuing means the iteration started inside the data):
the `while p < len(data)` loop of `gif()` cannot run forever, and the
fuel `data.length + 1` of `runPass` dominates its iteration count. -/
theorem scanStep_cursor_advances (data : List Nat) (x y : Int) (dm : Option Int) (cl : Bool)
    (crop : Option (Int × Int × Int × Int)) (bg : Nat) (p : Nat) (t : Option Nat) (f : Int)
    (acc : List Eff) (st : PassStep)
    (h : scanStep data x y dm cl crop bg p t f acc = st) :
    ∀ (p' : Nat) (t' : Option Nat) (f' : Int) (acc' : List Eff),
      st = .next p' t' f' acc' → p < p' ∧ p < data.length := by
  intro p' t' f' acc' hst
  by_cases hp : p < data.length
  · refine ⟨?_, hp⟩
    simp only [scanStep, extensionStep, imageStep, skipSubblocks, readSubblocks] at h
    rw [if_pos hp] at h
    repeat' split at h
    all_goals subst h
    all_goals
      first
      | exact PassStep.noConfusion hst
      | (injection hst with h1 h2 h3 h4
         subst h1
         omega)
      | (rename_i q2 hskip
         injection hst with h1 h2 h3 h4
         subst h1
         have := skipSubblocksF_lt data _ _ _ hskip
         omega)
      | (injection hst with h1 h2 h3 h4
         subst h1
         refine Nat.lt_of_lt_of_le ?_ (readSubblocksF_ge data data.length _)
         omega)
  · exfalso
    simp only [scanStep] at h
    rw [if_neg hp] at h
    subst h
    simp at hst

/-- Sufficient fuel makes `skipSubblocksF` fuel-independent. -/
theorem skipSubblocksF_fuel_irrel (data : List Nat) :
    ∀ f₁ f₂ pos, data.length - pos < f₁ → data.length - pos < f₂ →
      skipSubblocksF data f₁ pos = skipSubblocksF data f₂ pos := by
  intro f₁
  induction f₁ with
  | zero =>
    intro f₂ pos h1 h2
    omega
  | succ f₁ ih =>
    intro f₂ pos h1 h2
    cases f₂ with
    | zero => omega
    | succ f₂ =>
      simp only [skipSubblocksF]
      by_cases hp : pos < data.length
      · rw [if_pos hp, if_pos hp]
        by_cases hb : data.getD pos 0 = 0
        · rw [if_pos hb, if_pos hb]
        · rw [if_neg hb, if_neg hb]
          exact ih f₂ (pos + 1 + data.getD pos 0) (by omega) (by omega)
      · rw [if_neg hp, if_neg hp]

/-- Sufficient fuel makes the bit-reading loop fuel-independent: the
loop finishes within `codeSize - bitsRead` iterations. -/
theorem nextCodeAuxF_fuel_irrel (img : List Nat) :
    ∀ f₁ f₂ bp raw sh br cs, cs - br < f₁ → cs - br < f₂ →
      nextCodeAuxF img f₁ bp raw sh br cs = nextCodeAuxF img f₂ bp raw sh br cs := by
  intro f₁
  induction f₁ with
  | zero =>
    intro f₂ bp raw sh br cs h1 h2
    omega
  | succ f₁ ih =>
    intro f₂ bp raw sh br cs h1 h2
    cases f₂ with
    | zero => omega
    | succ f₂ =>
      simp only [nextCodeAuxF]
      by_cases hc : br < cs ∧ bp / 8 < img.length
      · rw [if_pos hc, if_pos hc]
        have hav : 1 ≤ 8 - bp % 8 := by omega
        by_cases hlt : 8 - bp % 8 < cs - br
        · rw [if_pos hlt]
          exact ih f₂ _ _ _ _ _ (by omega) (by omega)
        · rw [if_neg hlt]
          exact ih f₂ _ _ _ _ _ (by omega) (by omega)
      · rw [if_neg hc, if_neg hc]

/-- On a successful read the bit cursor advances by exactly the number of
requested bits. -/
theorem nextCodeAuxF_advance (img : List Nat) :
    ∀ fuel bp raw sh br cs r bp',
      nextCodeAuxF img fuel bp raw sh br cs = (some r, bp') → br ≤ cs →
      bp' = bp + (cs - br) := by
  intro fuel
  induction fuel with
  | zero =>
    intro bp raw sh br cs r bp' h _
    exact absurd h (by simp [nextCodeAuxF])
  | succ fuel ih =>
    intro bp raw sh br cs r bp' h hbr
    simp only [nextCodeAuxF] at h
    split at h
    · rename_i hcond
      by_cases hlt : 8 - bp % 8 < cs - br
      · rw [if_pos hlt] at h
        have := ih _ _ _ _ _ _ _ h (by omega)
        omega
      · rw [if_neg hlt] at h
        have := ih _ _ _ _ _ _ _ h (by omega)
        omega
    · split at h
      · rename_i hbc
        simp only [Prod.mk.injEq] at h
        omega
      · exact absurd h (by simp)

theorem nextCode_advance (img : List Nat) (bp cs r bp' : Nat)
    (h : nextCode img bp cs = (some r, bp')) : bp' = bp + cs := by
  unfold nextCode at h
  split at h
  · exact absurd h (by simp)
  · have := nextCodeAuxF_advance img (cs + 1) bp 0 0 0 cs r bp' h (by omega)
    omega

/-- A continuing decode-loop iteration starts with its bit cursor inside
the data. -/
theorem lzwStep_cont_inbounds (img : List Nat) (m : Nat) (s s' : LZWState)
    (h : lzwStep img m s = .cont s') : s.bitPos / 8 < img.length := by
  simp only [lzwStep] at h
  split at h
  · exact absurd h (by simp)
  · rename_i code bp heq
    unfold nextCode at heq
    split at heq
    · simp at heq
    · rename_i hlen
      omega

/-- A continuing decode-loop iteration strictly advances the bit cursor
(by at least the current code size): the `while` loop of `_lzw_decode`
cannot run forever, and the fuel `8 * img.length + 2` of `lzw_decode`
dominates its iteration count. -/
theorem lzwStep_bitPos_advance (img : List Nat) (m : Nat) (s s' : LZWState)
    (hcs : 1 ≤ s.codeSize) (h : lzwStep img m s = .cont s') : s.bitPos < s'.bitPos := by
  simp only [lzwStep] at h
  split at h
  · exact absurd h (by simp)
  · rename_i code bp heq
    have hadv := nextCode_advance img s.bitPos s.codeSize code bp heq
    by_cases hc : code = 2 ^ m
    · rw [if_pos hc] at h
      split at h
      · exact absurd h (by simp)
      · rename_i c2 bp2 heq2
        have hadv2 := nextCode_advance img bp (m + 1) c2 bp2 heq2
        split at h
        · exact absurd h (by simp)
        · injection h with h'
          subst h'
          show s.bitPos < bp2
          omega
    · rw [if_neg hc] at h
      split at h
      · exact absurd h (by simp)
      · split at h
        · split at h
          · exact absurd h (by simp)
          · injection h with h'
            subst h'
            show s.bitPos < bp
            omega
        · split at h
          · split at h
            · exact absurd h (by simp)
            · injection h with h'
              subst h'
              show s.bitPos < bp
              omega
          · exact absurd h (by simp)

/-- Sufficient fuel makes the decoding loop fuel-independent: every
iteration consumes at least one bit and the cursor stays within
`8 * img.length` bits, so `lzw_decode`'s fuel `8 * img.length + 2`
computes the function of the source's unbounded loop. -/
theorem lzwRunF_fuel_irrel (img : List Nat) (m e : Nat) :
    ∀ f₁ f₂ s, 1 ≤ s.codeSize →
      8 * img.length - s.bitPos < f₁ → 8 * img.length - s.bitPos < f₂ →
      lzwRunF img m e f₁ s = lzwRunF img m e f₂ s := by
  intro f₁
  induction f₁ with
  | zero =>
    intro f₂ s hcs h1 h2
    omega
  | succ f₁ ih =>
    intro f₂ s hcs h1 h2
    cases f₂ with
    | zero => omega
    | succ f₂ =>
      simp only [lzwRunF]
      by_cases hout : e ≤ s.output.length
      · rw [if_pos hout, if_pos hout]
      · rw [if_neg hout, if_neg hout]
        cases hstep : lzwStep img m s with
        | cont s' =>
          have hcs' : 1 ≤ s'.codeSize := by
            rcases lzw_code_size_aux img m s s' hstep with ⟨_, h'⟩ | ⟨_, h'⟩
            · omega
            · rw [h']
              split <;> omega
          have hadv : s.bitPos < s'.bitPos := lzwStep_bitPos_advance img m s s' hcs hstep
          have hin : s.bitPos / 8 < img.length := lzwStep_cont_inbounds img m s s' hstep
          exact ih f₂ s' hcs' (by omega) (by omega)
        | stop out => rfl
        | crash => rfl

/-- Sufficient fuel makes the block-scanning loop fuel-independent: the
cursor strictly increases and the loop exits once it reaches
`data.length`, so `runPass`'s fuel `data.length + 1` computes the
function of the source's unbounded loop. -/
theorem runPassF_fuel_irrel (data : List Nat) (x y : Int) (dm : Option Int) (cl : Bool)
    (crop : Option (Int × Int × Int × Int)) (bg : Nat) :
    ∀ (f₁ f₂ p : Nat) (t : Option Nat) (fd : Int) (acc : List Eff),
      data.length - p < f₁ → data.length - p < f₂ →
      runPassF data x y dm cl crop bg f₁ p t fd acc =
        runPassF data x y dm cl crop bg f₂ p t fd acc := by
  intro f₁
  induction f₁ with
  | zero =>
    intro f₂ p t fd acc h1 h2
    omega
  | succ f₁ ih =>
    intro f₂ p t fd acc h1 h2
    cases f₂ with
    | zero => omega
    | succ f₂ =>
      simp only [runPassF]
      cases hstep : scanStep data x y dm cl crop bg p t fd acc with
      | stop r => rfl
      | next p' t' fd' acc' =>
        obtain ⟨hlt, hin⟩ := scanStep_cursor_advances data x y dm cl crop bg p t fd acc _
          hstep p' t' fd' acc' rfl
        exact ih f₂ p' t' fd' acc' (by omega) (by omega)

/-- Any fuel of at least `data.length + 1` computes `runPass`. -/
theorem runPass_fuel_sound (data : List Nat) (x y : Int) (dm : Option Int) (cl : Bool)
    (crop : Option (Int × Int × Int × Int)) (bg sp f : Nat)
    (hf : data.length + 1 ≤ f) :
    runPassF data x y dm cl crop bg f sp none 0 [] = runPass data x y dm cl crop bg sp := by
  unfold runPass
  exact runPassF_fuel_irrel data x y dm cl crop bg f (data.length + 1) sp none 0 []
    (by omega) (by omega)

/-- Any fuel of at least `8 * img.length + 2` computes the decoding loop
of `lzw_decode` from a freshly initialised state. -/
theorem lzw_decode_fuel_sound (img : List Nat) (m e : Nat) (s : LZWState)
    (hs : lzwInit img m = some s) (f : Nat) (hf : 8 * img.length + 2 ≤ f) :
    lzwRunF img m e f s = lzwRunF img m e (8 * img.length + 2) s := by
  have hcs := lzwInit_codeSize img m s hs
  exact lzwRunF_fuel_irrel img m e f (8 * img.length + 2) s (by omega) (by omega) (by omega)

end Ssd1306Plus
